import Mathlib

/-!
Shallow embedding of the mempool comparators, sentinel constants, sanity-check
frequency configuration and the `DisconnectedBlockTransactions` reorg buffer
from `src/txmempool.h`, together with theorems settling the specification
claims about them.

Modelling conventions:
* C++ `double` arithmetic inside the comparators is modelled exactly over `ℚ`
  (the comparators only multiply integer fees by integer sizes; the exact
  rational semantics is the intended meaning of the cross-multiplication
  trick that avoids division).
* `uint256` transaction hashes are modelled as `Nat`; the `<` operator on
  `uint256` is numeric comparison.
* A `CTxMemPoolEntry` is modelled by the tuple of accessor values the
  comparators read; the comparators only ever call those accessors.
-/

/-- Fake height value used in Coin to signify they are only in the memory
pool, from `static const uint32_t MEMPOOL_HEIGHT = 0x7FFFFFFF;`. -/
def MEMPOOL_HEIGHT : Nat := 0x7FFFFFFF

/-- Rolling-fee half-life, from
`static const int ROLLING_FEE_HALFLIFE = 60 * 60 * 12;`. -/
def ROLLING_FEE_HALFLIFE : Int := 60 * 60 * 12

/-- Model of `CTxMemPoolEntry`: the accessor values read by the mempool
comparators.  `nTxSize` is the value returned by `GetTxSize()`, `hash` the
value of `GetTx().GetHash()`. -/
structure CTxMemPoolEntry where
  nFee : Int
  nTxSize : Nat
  nTime : Int
  feeDelta : Int
  nSizeWithDescendants : Nat
  nModFeesWithDescendants : Int
  nSizeWithAncestors : Nat
  nModFeesWithAncestors : Int
  hash : Nat
deriving DecidableEq

namespace CTxMemPoolEntry

/-- `GetFee()`. -/
def GetFee (a : CTxMemPoolEntry) : Int := a.nFee

/-- `GetTxSize()`. -/
def GetTxSize (a : CTxMemPoolEntry) : Nat := a.nTxSize

/-- `GetTime()`. -/
def GetTime (a : CTxMemPoolEntry) : Int := a.nTime

/-- `GetModifiedFee() { return nFee + feeDelta; }`. -/
def GetModifiedFee (a : CTxMemPoolEntry) : Int := a.nFee + a.feeDelta

/-- `GetSizeWithDescendants()`. -/
def GetSizeWithDescendants (a : CTxMemPoolEntry) : Nat := a.nSizeWithDescendants

/-- `GetModFeesWithDescendants()`. -/
def GetModFeesWithDescendants (a : CTxMemPoolEntry) : Int := a.nModFeesWithDescendants

/-- `GetSizeWithAncestors()`. -/
def GetSizeWithAncestors (a : CTxMemPoolEntry) : Nat := a.nSizeWithAncestors

/-- `GetModFeesWithAncestors()`. -/
def GetModFeesWithAncestors (a : CTxMemPoolEntry) : Int := a.nModFeesWithAncestors

/-- `GetTx().GetHash()`, modelled as a natural number. -/
def GetHash (a : CTxMemPoolEntry) : Nat := a.hash

end CTxMemPoolEntry

namespace CompareTxMemPoolEntryByDescendantScore

/-- `CompareTxMemPoolEntryByDescendantScore::GetModFeeAndSize`:
compares the feerate with descendants to the feerate of the transaction and
returns the (fee, size) pair of the max.  The source computes
`f1 = modFee * sizeWithDescendants`, `f2 = modFeesWithDescendants * txSize`
in `double` and picks the descendant pair when `f2 > f1`. -/
def GetModFeeAndSize (a : CTxMemPoolEntry) : ℚ × ℚ :=
  if (a.GetModifiedFee : ℚ) * (a.GetSizeWithDescendants : ℚ) <
      (a.GetModFeesWithDescendants : ℚ) * (a.GetTxSize : ℚ) then
    ((a.GetModFeesWithDescendants : ℚ), (a.GetSizeWithDescendants : ℚ))
  else
    ((a.GetModifiedFee : ℚ), (a.GetTxSize : ℚ))

/-- `CompareTxMemPoolEntryByDescendantScore::operator()`:
with `(a_mod_fee, a_size)` and `(b_mod_fee, b_size)` from `GetModFeeAndSize`,
computes `f1 = a_mod_fee * b_size` and `f2 = a_size * b_mod_fee`; on
`f1 == f2` returns `a.GetTime() >= b.GetTime()`, otherwise `f1 < f2`. -/
def operatorCall (a b : CTxMemPoolEntry) : Bool :=
  if (GetModFeeAndSize a).1 * (GetModFeeAndSize b).2 =
      (GetModFeeAndSize a).2 * (GetModFeeAndSize b).1 then
    decide (b.GetTime ≤ a.GetTime)
  else
    decide ((GetModFeeAndSize a).1 * (GetModFeeAndSize b).2 <
      (GetModFeeAndSize a).2 * (GetModFeeAndSize b).1)

end CompareTxMemPoolEntryByDescendantScore

/-- The descendant-index sort value stated by the specification:
`max(modified_fee/size, mod_fees_with_descendants/size_with_descendants)`. -/
def descendantScore (a : CTxMemPoolEntry) : ℚ :=
  max ((a.GetModifiedFee : ℚ) / (a.GetTxSize : ℚ))
    ((a.GetModFeesWithDescendants : ℚ) / (a.GetSizeWithDescendants : ℚ))

namespace CompareTxMemPoolEntryByScore

/-- `CompareTxMemPoolEntryByScore::operator()`: computes
`f1 = a.GetFee() * b.GetTxSize()` and `f2 = b.GetFee() * a.GetTxSize()`;
on `f1 == f2` returns `b.GetTx().GetHash() < a.GetTx().GetHash()`,
otherwise `f1 > f2`.  Uses the raw fee, not the modified fee. -/
def operatorCall (a b : CTxMemPoolEntry) : Bool :=
  if (a.GetFee : ℚ) * (b.GetTxSize : ℚ) = (b.GetFee : ℚ) * (a.GetTxSize : ℚ) then
    decide (b.GetHash < a.GetHash)
  else
    decide ((b.GetFee : ℚ) * (a.GetTxSize : ℚ) < (a.GetFee : ℚ) * (b.GetTxSize : ℚ))

end CompareTxMemPoolEntryByScore

namespace CompareTxMemPoolEntryByAncestorFee

/-- `CompareTxMemPoolEntryByAncestorFee::GetModFeeAndSize`:
compares the feerate with ancestors to the feerate of the transaction and
returns the (fee, size) pair of the min.  The source computes
`f1 = modFee * sizeWithAncestors`, `f2 = modFeesWithAncestors * txSize`
in `double` and picks the ancestor pair when `f1 > f2`. -/
def GetModFeeAndSize (a : CTxMemPoolEntry) : ℚ × ℚ :=
  if (a.GetModFeesWithAncestors : ℚ) * (a.GetTxSize : ℚ) <
      (a.GetModifiedFee : ℚ) * (a.GetSizeWithAncestors : ℚ) then
    ((a.GetModFeesWithAncestors : ℚ), (a.GetSizeWithAncestors : ℚ))
  else
    ((a.GetModifiedFee : ℚ), (a.GetTxSize : ℚ))

/-- `CompareTxMemPoolEntryByAncestorFee::operator()`:
with `(a_mod_fee, a_size)` and `(b_mod_fee, b_size)` from `GetModFeeAndSize`,
computes `f1 = a_mod_fee * b_size` and `f2 = a_size * b_mod_fee`; on
`f1 == f2` returns `a.GetTx().GetHash() < b.GetTx().GetHash()`, otherwise
`f1 > f2`. -/
def operatorCall (a b : CTxMemPoolEntry) : Bool :=
  if (GetModFeeAndSize a).1 * (GetModFeeAndSize b).2 =
      (GetModFeeAndSize a).2 * (GetModFeeAndSize b).1 then
    decide (a.GetHash < b.GetHash)
  else
    decide ((GetModFeeAndSize a).2 * (GetModFeeAndSize b).1 <
      (GetModFeeAndSize a).1 * (GetModFeeAndSize b).2)

end CompareTxMemPoolEntryByAncestorFee

/-- The ancestor-index sort value stated by the specification:
`min(modified_fee/size, mod_fees_with_ancestors/size_with_ancestors)`. -/
def ancestorScore (a : CTxMemPoolEntry) : ℚ :=
  min ((a.GetModifiedFee : ℚ) / (a.GetTxSize : ℚ))
    ((a.GetModFeesWithAncestors : ℚ) / (a.GetSizeWithAncestors : ℚ))

/-- `CTxMemPool::setSanityCheck(double dFrequency)`:
`nCheckFrequency = static_cast<uint32_t>(dFrequency * 4294967295.0)`.
For `dFrequency ∈ [0, 1]` the product is in `[0, 2^32 - 1]`, so the
`uint32_t` cast is truncation toward zero, i.e. the floor. -/
def setSanityCheck (dFrequency : ℚ) : Nat :=
  ⌊dFrequency * 4294967295⌋.toNat

/-- Modelled from the spec: the probability that `check` runs on a mutation,
given the stored `nCheckFrequency`.  The header documents the field as
`Value n means that n times in 2^32 we check` (the body of `check` is not in
the sources). -/
def checkProbability (nCheckFrequency : Nat) : ℚ :=
  (nCheckFrequency : ℚ) / 2 ^ 32

/-- Claim C9: the sentinel constants have exactly the specified values:
`MEMPOOL_HEIGHT = 0x7FFFFFFF` (= 2147483647) and
`ROLLING_FEE_HALFLIFE` is 43200 seconds (12 hours). -/
theorem sentinel_constants_values :
    MEMPOOL_HEIGHT = 0x7FFFFFFF ∧ MEMPOOL_HEIGHT = 2147483647 ∧
      ROLLING_FEE_HALFLIFE = 43200 := by
  refine ⟨rfl, ?_, ?_⟩ <;> decide

theorem descendant_GetModFeeAndSize_spec (a : CTxMemPoolEntry)
    (h1 : 0 < a.nTxSize) (h2 : 0 < a.nSizeWithDescendants) :
    0 < (CompareTxMemPoolEntryByDescendantScore.GetModFeeAndSize a).2 ∧
      (CompareTxMemPoolEntryByDescendantScore.GetModFeeAndSize a).1 /
        (CompareTxMemPoolEntryByDescendantScore.GetModFeeAndSize a).2 =
        descendantScore a := by
  have hs1 : (0 : ℚ) < (a.GetTxSize : ℚ) := by
    unfold CTxMemPoolEntry.GetTxSize; exact_mod_cast h1
  have hs2 : (0 : ℚ) < (a.GetSizeWithDescendants : ℚ) := by
    unfold CTxMemPoolEntry.GetSizeWithDescendants; exact_mod_cast h2
  unfold CompareTxMemPoolEntryByDescendantScore.GetModFeeAndSize descendantScore
  split_ifs with h
  · refine ⟨hs2, ?_⟩
    have hlt : (a.GetModifiedFee : ℚ) / (a.GetTxSize : ℚ) <
        (a.GetModFeesWithDescendants : ℚ) / (a.GetSizeWithDescendants : ℚ) := by
      rw [div_lt_div_iff hs1 hs2]; exact h
    exact (max_eq_right (le_of_lt hlt)).symm
  · refine ⟨hs1, ?_⟩
    have hle : (a.GetModFeesWithDescendants : ℚ) / (a.GetSizeWithDescendants : ℚ) ≤
        (a.GetModifiedFee : ℚ) / (a.GetTxSize : ℚ) := by
      rw [div_le_div_iff hs2 hs1]; exact not_lt.mp h
    exact (max_eq_left hle).symm

/-- Claim C1: the descendant-score index comparator orders entries by the sort
value `max(modified_fee/size, mod_fees_with_descendants/size_with_descendants)`
(computed per entry by `GetModFeeAndSize`) in ascending order, and on equal
sort values the entry with the later (or equal) entry time orders first. -/
theorem descendant_score_index_ordering (a b : CTxMemPoolEntry)
    (ha1 : 0 < a.nTxSize) (ha2 : 0 < a.nSizeWithDescendants)
    (hb1 : 0 < b.nTxSize) (hb2 : 0 < b.nSizeWithDescendants) :
    CompareTxMemPoolEntryByDescendantScore.operatorCall a b = true ↔
      (descendantScore a < descendantScore b ∨
        (descendantScore a = descendantScore b ∧ b.GetTime ≤ a.GetTime)) := by
  obtain ⟨hqa, hra⟩ := descendant_GetModFeeAndSize_spec a ha1 ha2
  obtain ⟨hqb, hrb⟩ := descendant_GetModFeeAndSize_spec b hb1 hb2
  unfold CompareTxMemPoolEntryByDescendantScore.operatorCall
  set pa := CompareTxMemPoolEntryByDescendantScore.GetModFeeAndSize a with hpa
  set pb := CompareTxMemPoolEntryByDescendantScore.GetModFeeAndSize b with hpb
  have heq : (pa.1 * pb.2 = pa.2 * pb.1) ↔
      descendantScore a = descendantScore b := by
    rw [← hra, ← hrb, div_eq_div_iff (ne_of_gt hqa) (ne_of_gt hqb),
      mul_comm pa.2 pb.1]
  have hlt : (pa.1 * pb.2 < pa.2 * pb.1) ↔
      descendantScore a < descendantScore b := by
    rw [← hra, ← hrb, div_lt_div_iff hqa hqb, mul_comm pa.2 pb.1]
  split_ifs with h
  · simp only [decide_eq_true_eq]
    have hsc := heq.mp h
    constructor
    · intro ht; exact Or.inr ⟨hsc, ht⟩
    · rintro (hlt2 | ⟨-, ht⟩)
      · exact absurd hlt2 (by rw [hsc]; exact lt_irrefl _)
      · exact ht
  · simp only [decide_eq_true_eq]
    rw [hlt]
    constructor
    · exact Or.inl
    · rintro (h2 | ⟨hsc, -⟩)
      · exact h2
      · exact absurd (heq.mpr hsc) h

theorem ancestor_GetModFeeAndSize_spec (a : CTxMemPoolEntry)
    (h1 : 0 < a.nTxSize) (h2 : 0 < a.nSizeWithAncestors) :
    0 < (CompareTxMemPoolEntryByAncestorFee.GetModFeeAndSize a).2 ∧
      (CompareTxMemPoolEntryByAncestorFee.GetModFeeAndSize a).1 /
        (CompareTxMemPoolEntryByAncestorFee.GetModFeeAndSize a).2 =
        ancestorScore a := by
  have hs1 : (0 : ℚ) < (a.GetTxSize : ℚ) := by
    unfold CTxMemPoolEntry.GetTxSize; exact_mod_cast h1
  have hs2 : (0 : ℚ) < (a.GetSizeWithAncestors : ℚ) := by
    unfold CTxMemPoolEntry.GetSizeWithAncestors; exact_mod_cast h2
  unfold CompareTxMemPoolEntryByAncestorFee.GetModFeeAndSize ancestorScore
  split_ifs with h
  · refine ⟨hs2, ?_⟩
    have hlt : (a.GetModFeesWithAncestors : ℚ) / (a.GetSizeWithAncestors : ℚ) <
        (a.GetModifiedFee : ℚ) / (a.GetTxSize : ℚ) := by
      rw [div_lt_div_iff hs2 hs1]; exact h
    exact (min_eq_right (le_of_lt hlt)).symm
  · refine ⟨hs1, ?_⟩
    have hle : (a.GetModifiedFee : ℚ) / (a.GetTxSize : ℚ) ≤
        (a.GetModFeesWithAncestors : ℚ) / (a.GetSizeWithAncestors : ℚ) := by
      rw [div_le_div_iff hs1 hs2]; exact not_lt.mp h
    exact (min_eq_left hle).symm

/-- Claim C2: the ancestor-score index's per-entry sort value, computed by
`CompareTxMemPoolEntryByAncestorFee::GetModFeeAndSize`, equals
`min(modified_fee/size, mod_fees_with_ancestors/size_with_ancestors)`, and the
comparator orders entries by this value in descending order with ties broken
by ascending transaction hash. -/
theorem ancestor_score_index_ordering (a b : CTxMemPoolEntry)
    (ha1 : 0 < a.nTxSize) (ha2 : 0 < a.nSizeWithAncestors)
    (hb1 : 0 < b.nTxSize) (hb2 : 0 < b.nSizeWithAncestors) :
    (CompareTxMemPoolEntryByAncestorFee.GetModFeeAndSize a).1 /
        (CompareTxMemPoolEntryByAncestorFee.GetModFeeAndSize a).2 =
        ancestorScore a ∧
      (CompareTxMemPoolEntryByAncestorFee.operatorCall a b = true ↔
        (ancestorScore b < ancestorScore a ∨
          (ancestorScore a = ancestorScore b ∧ a.GetHash < b.GetHash))) := by
  obtain ⟨hqa, hra⟩ := ancestor_GetModFeeAndSize_spec a ha1 ha2
  obtain ⟨hqb, hrb⟩ := ancestor_GetModFeeAndSize_spec b hb1 hb2
  refine ⟨hra, ?_⟩
  unfold CompareTxMemPoolEntryByAncestorFee.operatorCall
  set pa := CompareTxMemPoolEntryByAncestorFee.GetModFeeAndSize a with hpa
  set pb := CompareTxMemPoolEntryByAncestorFee.GetModFeeAndSize b with hpb
  have heq : (pa.1 * pb.2 = pa.2 * pb.1) ↔
      ancestorScore a = ancestorScore b := by
    rw [← hra, ← hrb, div_eq_div_iff (ne_of_gt hqa) (ne_of_gt hqb),
      mul_comm pa.2 pb.1]
  have hgt : (pa.2 * pb.1 < pa.1 * pb.2) ↔
      ancestorScore b < ancestorScore a := by
    rw [← hra, ← hrb, div_lt_div_iff hqb hqa, mul_comm pa.2 pb.1]
  split_ifs with h
  · simp only [decide_eq_true_eq]
    have hsc := heq.mp h
    constructor
    · intro ht; exact Or.inr ⟨hsc, ht⟩
    · rintro (hlt2 | ⟨-, ht⟩)
      · exact absurd hlt2 (by rw [hsc]; exact lt_irrefl _)
      · exact ht
  · simp only [decide_eq_true_eq]
    rw [hgt]
    constructor
    · exact Or.inl
    · rintro (h2 | ⟨hsc, -⟩)
      · exact h2
      · exact absurd (heq.mpr hsc) h

/-- Model of `CTransactionRef` as seen by `DisconnectedBlockTransactions`:
`hash` is `GetHash()` (a `uint256`, modelled as `Nat`) and `usage` is
`RecursiveDynamicUsage(tx)`, an externally defined pure function of the
transaction, modelled as an uninterpreted per-transaction value. -/
structure CTransactionRef where
  hash : Nat
  usage : Nat
deriving DecidableEq

/-- Model of `DisconnectedBlockTransactions`: `queuedTx` is the
`insertion_order` view of the boost multi-index (hashed-unique on txid,
sequenced by insertion), `cachedInnerUsage` the cached usage counter. -/
structure DisconnectedBlockTransactions where
  queuedTx : List CTransactionRef
  cachedInnerUsage : Nat
deriving DecidableEq

namespace DisconnectedBlockTransactions

/-- Sum of `RecursiveDynamicUsage` over a list of transactions. -/
def usageSum (l : List CTransactionRef) : Nat :=
  (l.map CTransactionRef.usage).sum

/-- `addTransaction`: `queuedTx.insert(tx)` (the hashed-unique index rejects
a duplicate hash, otherwise the sequenced index appends at the end), then
`cachedInnerUsage += RecursiveDynamicUsage(tx)` unconditionally. -/
def addTransaction (st : DisconnectedBlockTransactions) (tx : CTransactionRef) :
    DisconnectedBlockTransactions :=
  { queuedTx :=
      if st.queuedTx.any (fun t => t.hash == tx.hash) then st.queuedTx
      else st.queuedTx ++ [tx],
    cachedInnerUsage := st.cachedInnerUsage + tx.usage }

/-- One iteration of the `removeForBlock` loop: look up `tx`'s hash in the
hashed index; if found, subtract the found entry's usage and erase it. -/
def removeForBlockStep (st : DisconnectedBlockTransactions)
    (tx : CTransactionRef) : DisconnectedBlockTransactions :=
  match st.queuedTx.find? (fun t => t.hash == tx.hash) with
  | some t =>
    { queuedTx := st.queuedTx.eraseP (fun u => u.hash == tx.hash),
      cachedInnerUsage := st.cachedInnerUsage - t.usage }
  | none => st

/-- `removeForBlock(vtx)`: short-circuit when `queuedTx` is empty, otherwise
iterate `removeForBlockStep` over the block's transactions in order. -/
def removeForBlock (st : DisconnectedBlockTransactions)
    (vtx : List CTransactionRef) : DisconnectedBlockTransactions :=
  if st.queuedTx.isEmpty then st
  else vtx.foldl removeForBlockStep st

/-- `removeEntry(entry)`: the `insertion_order` iterator is modelled as a
position `i` in `queuedTx`; subtract the entry's usage and erase it.  (An
out-of-range position models an invalid iterator and leaves the state
unchanged; the source requires a valid iterator.) -/
def removeEntry (st : DisconnectedBlockTransactions) (i : Nat) :
    DisconnectedBlockTransactions :=
  match st.queuedTx[i]? with
  | some t =>
    { queuedTx := st.queuedTx.eraseIdx i,
      cachedInnerUsage := st.cachedInnerUsage - t.usage }
  | none => st

/-- `clear()`: `cachedInnerUsage = 0; queuedTx.clear();`. -/
def clear (_st : DisconnectedBlockTransactions) : DisconnectedBlockTransactions :=
  { queuedTx := [], cachedInnerUsage := 0 }

/-- The destructor `~DisconnectedBlockTransactions` runs
`assert(queuedTx.empty())`; this is the asserted condition. -/
def destructorAssertHolds (st : DisconnectedBlockTransactions) : Bool :=
  st.queuedTx.isEmpty

/-- The accounting invariant claimed for the buffer: `cachedInnerUsage`
equals the sum of `RecursiveDynamicUsage` over the queued transactions. -/
def innerUsageInvariant (st : DisconnectedBlockTransactions) : Prop :=
  st.cachedInnerUsage = usageSum st.queuedTx

end DisconnectedBlockTransactions

theorem usageSum_cons (hd : CTransactionRef) (tl : List CTransactionRef) :
    DisconnectedBlockTransactions.usageSum (hd :: tl)
      = hd.usage + DisconnectedBlockTransactions.usageSum tl := by
  simp [DisconnectedBlockTransactions.usageSum]

theorem find?_usage_le_and_eraseP (p : CTransactionRef → Bool)
    (l : List CTransactionRef) (t : CTransactionRef)
    (h : l.find? p = some t) :
    t.usage ≤ DisconnectedBlockTransactions.usageSum l ∧
      DisconnectedBlockTransactions.usageSum (l.eraseP p)
        = DisconnectedBlockTransactions.usageSum l - t.usage := by
  induction l with
  | nil => simp at h
  | cons hd tl ih =>
    cases hph : p hd with
    | true =>
      rw [List.find?_cons_of_pos _ hph] at h
      obtain rfl : hd = t := by injection h
      rw [List.eraseP_cons_of_pos hph, usageSum_cons]
      omega
    | false =>
      rw [List.find?_cons_of_neg _ (by simp [hph])] at h
      obtain ⟨h1, h2⟩ := ih h
      rw [List.eraseP_cons_of_neg (by simp [hph]), usageSum_cons, usageSum_cons]
      omega

theorem getElem?_usage_le_and_eraseIdx (l : List CTransactionRef) (i : Nat)
    (t : CTransactionRef) (h : l[i]? = some t) :
    t.usage ≤ DisconnectedBlockTransactions.usageSum l ∧
      DisconnectedBlockTransactions.usageSum (l.eraseIdx i)
        = DisconnectedBlockTransactions.usageSum l - t.usage := by
  induction l generalizing i with
  | nil => simp at h
  | cons hd tl ih =>
    cases i with
    | zero =>
      obtain rfl : hd = t := by simpa using h
      simp [List.eraseIdx, usageSum_cons]
    | succ n =>
      rw [List.getElem?_cons_succ] at h
      obtain ⟨h1, h2⟩ := ih n h
      rw [List.eraseIdx_cons_succ, usageSum_cons, usageSum_cons]
      omega

theorem removeForBlockStep_innerUsageInvariant
    (st : DisconnectedBlockTransactions) (tx : CTransactionRef)
    (hinv : DisconnectedBlockTransactions.innerUsageInvariant st) :
    DisconnectedBlockTransactions.innerUsageInvariant
      (DisconnectedBlockTransactions.removeForBlockStep st tx) := by
  unfold DisconnectedBlockTransactions.innerUsageInvariant at *
  unfold DisconnectedBlockTransactions.removeForBlockStep
  cases hfind : st.queuedTx.find? (fun t => t.hash == tx.hash) with
  | none => exact hinv
  | some t =>
    obtain ⟨h1, h2⟩ := find?_usage_le_and_eraseP _ _ _ hfind
    simp only []
    omega

theorem foldl_removeForBlockStep_innerUsageInvariant
    (vtx : List CTransactionRef) :
    ∀ st : DisconnectedBlockTransactions,
      DisconnectedBlockTransactions.innerUsageInvariant st →
      DisconnectedBlockTransactions.innerUsageInvariant
        (vtx.foldl DisconnectedBlockTransactions.removeForBlockStep st) := by
  induction vtx with
  | nil => exact fun st h => h
  | cons v rest ih =>
    intro st h
    exact ih _ (removeForBlockStep_innerUsageInvariant st v h)

/-- Claim C3 (amended): `cachedInnerUsage` equals the sum of
`RecursiveDynamicUsage` over the transactions in `queuedTx`, and this
equality is preserved by `removeForBlock`, `removeEntry` and `clear`
unconditionally, and by `addTransaction` provided the added transaction's
hash is not already in `queuedTx` (a duplicate `addTransaction` increments
`cachedInnerUsage` even though the hashed-unique index rejects the insert,
breaking the equality). -/
theorem cachedInnerUsage_tracks_queuedTx
    (st : DisconnectedBlockTransactions) (tx : CTransactionRef)
    (vtx : List CTransactionRef) (i : Nat)
    (hinv : DisconnectedBlockTransactions.innerUsageInvariant st) :
    ((∀ t ∈ st.queuedTx, t.hash ≠ tx.hash) →
      DisconnectedBlockTransactions.innerUsageInvariant
        (st.addTransaction tx)) ∧
    DisconnectedBlockTransactions.innerUsageInvariant (st.removeForBlock vtx) ∧
    DisconnectedBlockTransactions.innerUsageInvariant (st.removeEntry i) ∧
    DisconnectedBlockTransactions.innerUsageInvariant (st.clear) := by
  refine ⟨?_, ?_, ?_, ?_⟩
  · intro hnew
    unfold DisconnectedBlockTransactions.innerUsageInvariant at *
    unfold DisconnectedBlockTransactions.addTransaction
    have hany : st.queuedTx.any (fun t => t.hash == tx.hash) = false := by
      rw [List.any_eq_false]
      intro t ht
      simpa using hnew t ht
    simp only [hany, Bool.false_eq_true, if_false]
    rw [hinv]
    simp [DisconnectedBlockTransactions.usageSum]
  · unfold DisconnectedBlockTransactions.removeForBlock
    split_ifs with hemp
    · exact hinv
    · exact foldl_removeForBlockStep_innerUsageInvariant vtx st hinv
  · unfold DisconnectedBlockTransactions.innerUsageInvariant at *
    unfold DisconnectedBlockTransactions.removeEntry
    cases hget : st.queuedTx[i]? with
    | none => exact hinv
    | some t =>
      obtain ⟨h1, h2⟩ := getElem?_usage_le_and_eraseIdx _ _ _ hget
      simp only []
      omega
  · unfold DisconnectedBlockTransactions.innerUsageInvariant
    rfl

/-- A concrete transaction used in witnesses and counterexamples. -/
def ctxA : CTransactionRef := ⟨0, 5⟩

/-- A second concrete transaction with a different hash. -/
def ctxB : CTransactionRef := ⟨1, 7⟩

/-- A concrete buffer holding exactly `ctxA`. -/
def dbtA : DisconnectedBlockTransactions :=
  DisconnectedBlockTransactions.addTransaction ⟨[], 0⟩ ctxA

theorem cachedInnerUsage_tracks_queuedTx_witness :
    DisconnectedBlockTransactions.innerUsageInvariant dbtA ∧
    (((∀ t ∈ dbtA.queuedTx, t.hash ≠ ctxB.hash) →
        DisconnectedBlockTransactions.innerUsageInvariant
          (dbtA.addTransaction ctxB)) ∧
      DisconnectedBlockTransactions.innerUsageInvariant
        (dbtA.removeForBlock [ctxA]) ∧
      DisconnectedBlockTransactions.innerUsageInvariant (dbtA.removeEntry 0) ∧
      DisconnectedBlockTransactions.innerUsageInvariant dbtA.clear) :=
  ⟨by unfold DisconnectedBlockTransactions.innerUsageInvariant; decide,
   cachedInnerUsage_tracks_queuedTx dbtA ctxB [ctxA] 0
     (by unfold DisconnectedBlockTransactions.innerUsageInvariant; decide)⟩

theorem addTransaction_duplicate_breaks_usage_accounting :
    DisconnectedBlockTransactions.innerUsageInvariant dbtA ∧
      ¬ DisconnectedBlockTransactions.innerUsageInvariant
        (dbtA.addTransaction ctxA) := by
  unfold DisconnectedBlockTransactions.innerUsageInvariant
  exact ⟨by decide, by decide⟩

/-- Claim C4: adding a transaction whose hash is already present leaves the
stored contents of `queuedTx` unchanged: the duplicate is rejected by the
hashed-unique index and no new element is stored. -/
theorem addTransaction_duplicate_contents_unchanged
    (st : DisconnectedBlockTransactions) (tx : CTransactionRef)
    (hdup : tx.hash ∈ st.queuedTx.map CTransactionRef.hash) :
    (st.addTransaction tx).queuedTx = st.queuedTx := by
  unfold DisconnectedBlockTransactions.addTransaction
  have hany : st.queuedTx.any (fun t => t.hash == tx.hash) = true := by
    rw [List.any_eq_true]
    obtain ⟨t, ht, he⟩ := List.mem_map.mp hdup
    exact ⟨t, ht, by simp [he]⟩
  simp [hany]

theorem addTransaction_duplicate_contents_unchanged_witness :
    ctxA.hash ∈ dbtA.queuedTx.map CTransactionRef.hash ∧
      (dbtA.addTransaction ctxA).queuedTx = dbtA.queuedTx :=
  ⟨by decide, addTransaction_duplicate_contents_unchanged dbtA ctxA (by decide)⟩

/-- Claim C10: destroying a buffer with non-empty `queuedTx` fails the
destructor's `assert(queuedTx.empty())`, and after `clear()` the assertion
always passes. -/
theorem must_drain_before_destruction :
    (∀ st : DisconnectedBlockTransactions, st.queuedTx ≠ [] →
      DisconnectedBlockTransactions.destructorAssertHolds st = false) ∧
    (∀ st : DisconnectedBlockTransactions,
      DisconnectedBlockTransactions.destructorAssertHolds st.clear = true) := by
  constructor
  · intro st h
    unfold DisconnectedBlockTransactions.destructorAssertHolds
    cases hq : st.queuedTx with
    | nil => exact absurd hq h
    | cons hd tl => simp [hq]
  · intro st
    rfl

theorem must_drain_before_destruction_witness :
    dbtA.queuedTx ≠ [] ∧
      DisconnectedBlockTransactions.destructorAssertHolds dbtA = false ∧
      DisconnectedBlockTransactions.destructorAssertHolds dbtA.clear = true :=
  ⟨by decide, must_drain_before_destruction.1 dbtA (by decide),
    must_drain_before_destruction.2 dbtA⟩

theorem eraseP_eq_filter_of_nodup_hashes (l : List CTransactionRef) (h : Nat)
    (hnd : (l.map CTransactionRef.hash).Nodup) :
    l.eraseP (fun t => t.hash == h) = l.filter (fun t => t.hash != h) := by
  induction l with
  | nil => rfl
  | cons hd tl ih =>
    rw [List.map_cons, List.nodup_cons] at hnd
    obtain ⟨hnotin, hnd2⟩ := hnd
    by_cases hph : hd.hash = h
    · rw [List.eraseP_cons_of_pos (by simp [hph]),
        List.filter_cons_of_neg (by simp [hph])]
      symm
      rw [List.filter_eq_self]
      intro t ht
      simp only [bne_iff_ne, ne_eq]
      intro heq
      exact hnotin (List.mem_map.mpr ⟨t, ht, by rw [heq, hph]⟩)
    · rw [List.eraseP_cons_of_neg (by simp [hph]),
        List.filter_cons_of_pos (by simp [hph]), ih hnd2]

theorem removeForBlockStep_queuedTx (st : DisconnectedBlockTransactions)
    (tx : CTransactionRef)
    (hnd : (st.queuedTx.map CTransactionRef.hash).Nodup) :
    (st.removeForBlockStep tx).queuedTx
      = st.queuedTx.filter (fun t => t.hash != tx.hash) := by
  unfold DisconnectedBlockTransactions.removeForBlockStep
  cases hfind : st.queuedTx.find? (fun t => t.hash == tx.hash) with
  | some t => exact eraseP_eq_filter_of_nodup_hashes _ _ hnd
  | none =>
    simp only []
    symm
    rw [List.filter_eq_self]
    intro a ha
    have := List.find?_eq_none.mp hfind a ha
    simpa using this

theorem removeForBlockStep_nodup_hashes (st : DisconnectedBlockTransactions)
    (tx : CTransactionRef)
    (hnd : (st.queuedTx.map CTransactionRef.hash).Nodup) :
    ((st.removeForBlockStep tx).queuedTx.map CTransactionRef.hash).Nodup := by
  rw [removeForBlockStep_queuedTx st tx hnd]
  exact hnd.sublist (List.Sublist.map _ (List.filter_sublist _))

theorem foldl_removeForBlockStep_queuedTx (vtx : List CTransactionRef) :
    ∀ st : DisconnectedBlockTransactions,
      (st.queuedTx.map CTransactionRef.hash).Nodup →
      (vtx.foldl DisconnectedBlockTransactions.removeForBlockStep st).queuedTx
        = st.queuedTx.filter
            (fun t => decide (t.hash ∉ vtx.map CTransactionRef.hash)) := by
  induction vtx with
  | nil =>
    intro st _
    simp only [List.foldl_nil]
    symm
    rw [List.filter_eq_self]
    intro a _
    simp
  | cons v rest ih =>
    intro st hnd
    rw [List.foldl_cons, ih _ (removeForBlockStep_nodup_hashes st v hnd),
      removeForBlockStep_queuedTx st v hnd, List.filter_filter]
    apply List.filter_congr
    intro t _
    by_cases h1 : t.hash = v.hash <;>
      by_cases h2 : t.hash ∈ rest.map CTransactionRef.hash <;>
      simp [h1, h2]

/-- Claim C5: after `removeForBlock(vtx)` no transaction whose hash equals
the hash of some element of `vtx` remains in `queuedTx`, and the remaining
entries are exactly the queued transactions whose hash does not appear in
`vtx`, kept in their original insertion order.  The buffer's hashes are
pairwise distinct (hashed-unique index). -/
theorem removeForBlock_removes_block_hashes
    (st : DisconnectedBlockTransactions) (vtx : List CTransactionRef)
    (hnd : (st.queuedTx.map CTransactionRef.hash).Nodup) :
    (∀ t ∈ (st.removeForBlock vtx).queuedTx,
        t.hash ∉ vtx.map CTransactionRef.hash) ∧
      (st.removeForBlock vtx).queuedTx
        = st.queuedTx.filter
            (fun t => decide (t.hash ∉ vtx.map CTransactionRef.hash)) := by
  have hq : (st.removeForBlock vtx).queuedTx
      = st.queuedTx.filter
          (fun t => decide (t.hash ∉ vtx.map CTransactionRef.hash)) := by
    unfold DisconnectedBlockTransactions.removeForBlock
    split_ifs with hemp
    · rw [List.isEmpty_iff] at hemp
      rw [hemp]
      rfl
    · exact foldl_removeForBlockStep_queuedTx vtx st hnd
  refine ⟨?_, hq⟩
  intro t ht
  rw [hq] at ht
  simpa using List.of_mem_filter ht

theorem removeForBlock_removes_block_hashes_witness :
    (dbtA.queuedTx.map CTransactionRef.hash).Nodup ∧
      ((∀ t ∈ (dbtA.removeForBlock [ctxA, ctxB]).queuedTx,
          t.hash ∉ [ctxA, ctxB].map CTransactionRef.hash) ∧
        (dbtA.removeForBlock [ctxA, ctxB]).queuedTx
          = dbtA.queuedTx.filter
              (fun t => decide (t.hash ∉ [ctxA, ctxB].map CTransactionRef.hash))) :=
  ⟨by decide, removeForBlock_removes_block_hashes dbtA [ctxA, ctxB] (by decide)⟩

/-- A concrete mempool entry used in witnesses and counterexamples. -/
def entryA : CTxMemPoolEntry := ⟨1000, 100, 50, 0, 300, 3000, 100, 1000, 1⟩

/-- A second concrete mempool entry with a lower feerate. -/
def entryB : CTxMemPoolEntry := ⟨500, 100, 40, 0, 100, 500, 100, 500, 2⟩

/-- `entryA` with a nonzero `feeDelta` but the same raw fee, size and hash. -/
def entryAd : CTxMemPoolEntry := ⟨1000, 100, 50, 12345, 300, 3000, 100, 1000, 1⟩

/-- `entryB` with a nonzero `feeDelta` but the same raw fee, size and hash. -/
def entryBd : CTxMemPoolEntry := ⟨500, 100, 40, 999, 100, 500, 100, 500, 2⟩

theorem descendant_score_index_ordering_witness :
    0 < entryA.nTxSize ∧ 0 < entryA.nSizeWithDescendants ∧
      0 < entryB.nTxSize ∧ 0 < entryB.nSizeWithDescendants ∧
      (CompareTxMemPoolEntryByDescendantScore.operatorCall entryA entryB = true ↔
        (descendantScore entryA < descendantScore entryB ∨
          (descendantScore entryA = descendantScore entryB ∧
            entryB.GetTime ≤ entryA.GetTime))) :=
  ⟨by decide, by decide, by decide, by decide,
    descendant_score_index_ordering entryA entryB
      (by decide) (by decide) (by decide) (by decide)⟩

theorem ancestor_score_index_ordering_witness :
    0 < entryA.nTxSize ∧ 0 < entryA.nSizeWithAncestors ∧
      0 < entryB.nTxSize ∧ 0 < entryB.nSizeWithAncestors ∧
      ((CompareTxMemPoolEntryByAncestorFee.GetModFeeAndSize entryA).1 /
          (CompareTxMemPoolEntryByAncestorFee.GetModFeeAndSize entryA).2 =
          ancestorScore entryA ∧
        (CompareTxMemPoolEntryByAncestorFee.operatorCall entryA entryB = true ↔
          (ancestorScore entryB < ancestorScore entryA ∨
            (ancestorScore entryA = ancestorScore entryB ∧
              entryA.GetHash < entryB.GetHash)))) :=
  ⟨by decide, by decide, by decide, by decide,
    ancestor_score_index_ordering entryA entryB
      (by decide) (by decide) (by decide) (by decide)⟩

/-- Claim C7 (amended): `CompareTxMemPoolEntryByDescendantScore` is not
irreflexive, hence not a strict weak ordering: for every entry `e`,
comparing `e` with itself takes the equal-products branch and returns
`a.GetTime() >= b.GetTime()`, which is true. -/
theorem descendant_score_compare_self (e : CTxMemPoolEntry) :
    CompareTxMemPoolEntryByDescendantScore.operatorCall e e = true := by
  unfold CompareTxMemPoolEntryByDescendantScore.operatorCall
  rw [if_pos (mul_comm _ _)]
  simp

theorem descendant_score_compare_self_not_false :
    ¬ CompareTxMemPoolEntryByDescendantScore.operatorCall entryA entryA = false := by
  have h : CompareTxMemPoolEntryByDescendantScore.operatorCall entryA entryA
      = true := by
    unfold CompareTxMemPoolEntryByDescendantScore.operatorCall
    rw [if_pos (mul_comm _ _)]
    simp [entryA, CTxMemPoolEntry.GetTime]
  simp [h]

/-- Claim C8: the relay comparator `CompareTxMemPoolEntryByScore` does not
depend on prioritisation: its result is determined by the raw fees, sizes and
hashes alone, so entries differing arbitrarily in `feeDelta` (and in any
field other than raw fee, size and hash) compare identically. -/
theorem relay_score_ignores_fee_delta (a b a2 b2 : CTxMemPoolEntry)
    (hfa : a2.nFee = a.nFee) (hsa : a2.nTxSize = a.nTxSize)
    (hha : a2.hash = a.hash) (hfb : b2.nFee = b.nFee)
    (hsb : b2.nTxSize = b.nTxSize) (hhb : b2.hash = b.hash) :
    CompareTxMemPoolEntryByScore.operatorCall a2 b2 =
      CompareTxMemPoolEntryByScore.operatorCall a b := by
  unfold CompareTxMemPoolEntryByScore.operatorCall CTxMemPoolEntry.GetFee
    CTxMemPoolEntry.GetTxSize CTxMemPoolEntry.GetHash
  rw [hfa, hsa, hha, hfb, hsb, hhb]

theorem relay_score_ignores_fee_delta_witness :
    entryAd.nFee = entryA.nFee ∧ entryAd.feeDelta ≠ entryA.feeDelta ∧
      entryBd.feeDelta ≠ entryB.feeDelta ∧
      CompareTxMemPoolEntryByScore.operatorCall entryAd entryBd =
        CompareTxMemPoolEntryByScore.operatorCall entryA entryB :=
  ⟨rfl, by decide, by decide,
    relay_score_ignores_fee_delta entryA entryB entryAd entryBd
      rfl rfl rfl rfl rfl rfl⟩

theorem checkProbability_setSanityCheck_one :
    checkProbability (setSanityCheck 1) = 4294967295 / 4294967296 := by
  have hval : setSanityCheck 1 = 4294967295 := by
    unfold setSanityCheck
    norm_num
    rfl
  unfold checkProbability
  rw [hval]
  norm_num

theorem setSanityCheck_one_not_every_mutation :
    ¬ checkProbability (setSanityCheck 1) = 1 := by
  rw [checkProbability_setSanityCheck_one]
  norm_num

/-- Claim C6 (amended): `setSanityCheck(f)` stores
`nCheckFrequency = floor(f * (2^32 - 1))`, so with the documented meaning of
`nCheckFrequency` (the check runs `n` times in `2^32` draws) the resulting
probability is `floor(f * 4294967295) / 2^32`: it undershoots `f` by less
than `2 / 2^32` and never reaches `f` exactly for `f > 0`; in particular
`setSanityCheck(1.0)` yields probability `4294967295 / 4294967296 < 1`, not
a check on every mutation. -/
theorem setSanityCheck_probability_approximates (f : ℚ)
    (h0 : 0 ≤ f) (h1 : f ≤ 1) :
    0 ≤ f - checkProbability (setSanityCheck f) ∧
      f - checkProbability (setSanityCheck f) < 2 / 2 ^ 32 ∧
      checkProbability (setSanityCheck 1) = 4294967295 / 4294967296 := by
  have hx0 : (0 : ℚ) ≤ f * 4294967295 := mul_nonneg h0 (by norm_num)
  have hn0 : 0 ≤ ⌊f * 4294967295⌋ := Int.floor_nonneg.mpr hx0
  have hfl : ((⌊f * 4294967295⌋ : ℤ) : ℚ) ≤ f * 4294967295 := Int.floor_le _
  have hlt : f * 4294967295 < ((⌊f * 4294967295⌋ : ℤ) : ℚ) + 1 :=
    Int.lt_floor_add_one _
  have hcast : ((setSanityCheck f : Nat) : ℚ)
      = ((⌊f * 4294967295⌋ : ℤ) : ℚ) := by
    unfold setSanityCheck
    rw [← Int.cast_natCast, Int.toNat_of_nonneg hn0]
  have hprob : checkProbability (setSanityCheck f)
      = ((⌊f * 4294967295⌋ : ℤ) : ℚ) / 2 ^ 32 := by
    unfold checkProbability
    rw [hcast]
  have h232 : (2 : ℚ) ^ 32 = 4294967296 := by norm_num
  refine ⟨?_, ?_, ?_⟩
  · rw [hprob, sub_nonneg, div_le_iff (by norm_num : (0 : ℚ) < 2 ^ 32), h232]
    nlinarith [hfl, h0]
  · rw [hprob, sub_lt_iff_lt_add, div_add_div_same,
      lt_div_iff (by norm_num : (0 : ℚ) < 2 ^ 32), h232]
    nlinarith [hlt, h1]
  · exact checkProbability_setSanityCheck_one

theorem setSanityCheck_probability_approximates_witness :
    (0 : ℚ) ≤ 1 ∧ (1 : ℚ) ≤ 1 ∧
      (0 ≤ (1 : ℚ) - checkProbability (setSanityCheck 1) ∧
        (1 : ℚ) - checkProbability (setSanityCheck 1) < 2 / 2 ^ 32 ∧
        checkProbability (setSanityCheck 1) = 4294967295 / 4294967296) :=
  ⟨by norm_num, le_refl 1,
    setSanityCheck_probability_approximates 1 (by norm_num) (le_refl 1)⟩
